/- Verification development for the toxicity detector in
   `toxicity_200/toxicity.py`: a shallow embedding of the tokenizer, the
   `ToxicityList` matcher, and the `ToxicityFilter` construction layer.
   Python strings are modelled as lists of characters (`PyStr`). -/
import Mathlib

namespace Toxicity

/-- Python strings, modelled as lists of characters. -/
abbrev PyStr := List Char

/-- The set of characters Python's `str.strip()` / `str.split()` treat as
whitespace (ASCII whitespace, the C1 controls `\x1c`-`\x1f`, `\x85`, and the
Unicode space separators). -/
def pyIsSpace (c : Char) : Bool :=
  let n := c.toNat
  n == 32 || (9 ≤ n && n ≤ 13) || n == 28 || n == 29 || n == 30 || n == 31 ||
    n == 133 || n == 160 || n == 0x1680 || (0x2000 ≤ n && n ≤ 0x200a) ||
    n == 0x2028 || n == 0x2029 || n == 0x202f || n == 0x205f || n == 0x3000

/-- The character class of the splitting regular expression
`(\p{P}|\p{S}|\p{Han})`: Unicode punctuation, symbols, and Han ideographs.
Exact on ASCII; beyond ASCII the principal punctuation, symbol, currency,
arrow/mathematical, CJK-punctuation, fullwidth-form and Han blocks are
covered (space separators are deliberately excluded, matching the regex:
`\p{P}`, `\p{S}` and `\p{Han}` contain no whitespace characters). -/
def isSplitChar (c : Char) : Bool :=
  let n := c.toNat
  -- ASCII punctuation and symbols
  (33 ≤ n && n ≤ 47) || (58 ≤ n && n ≤ 64) || (91 ≤ n && n ≤ 96) ||
    (123 ≤ n && n ≤ 126) ||
    -- Latin-1 punctuation and symbols (excluding NBSP 0xa0)
    (161 ≤ n && n ≤ 191) || n == 215 || n == 247 ||
    -- general punctuation (excluding the space separators and the
    -- line/paragraph separators 0x2028, 0x2029 and narrow space 0x202f)
    (0x2010 ≤ n && n ≤ 0x2027) || (0x2030 ≤ n && n ≤ 0x205e) ||
    -- currency, letterlike, arrows, mathematical, technical, box drawing,
    -- geometric shapes, miscellaneous symbols, dingbats
    (0x20a0 ≤ n && n ≤ 0x20bf) || (0x2190 ≤ n && n ≤ 0x2bff) ||
    -- CJK symbols and punctuation (excluding the ideographic space 0x3000)
    (0x3001 ≤ n && n ≤ 0x303f) ||
    -- Han: CJK unified ideographs, extension A, compatibility ideographs
    (0x3400 ≤ n && n ≤ 0x4dbf) || (0x4e00 ≤ n && n ≤ 0x9fff) ||
    (0xf900 ≤ n && n ≤ 0xfaff) ||
    -- fullwidth and halfwidth forms that are punctuation or symbols
    (0xfe30 ≤ n && n ≤ 0xfe4f) || (0xff01 ≤ n && n ≤ 0xff0f) ||
    (0xff1a ≤ n && n ≤ 0xff20) || (0xff3b ≤ n && n ≤ 0xff40) ||
    (0xff5b ≤ n && n ≤ 0xff65) ||
    -- CJK unified ideographs extensions B-F
    (0x20000 ≤ n && n ≤ 0x2a6df) || (0x2a700 ≤ n && n ≤ 0x2ebef)

/-- Modelled from the spec: `replace_unicode_punct` (imported by the source
from `text_normalizer`, which is not part of this repository's sources) is
"a pure string→string rewrite with a fixed substitution table" mapping
"fancy"/typographic punctuation variants to their plain ASCII equivalents.
This is the per-character substitution table. -/
def rupChar : Char → PyStr
  | '，' => [',']
  | '。' => ['.']
  | '、' => [',']
  | '”' => ['"']
  | '“' => ['"']
  | '∶' => [':']
  | '：' => [':']
  | '？' => ['?']
  | '！' => ['!']
  | '（' => ['(']
  | '）' => [')']
  | '；' => [';']
  | '—' => ['-']
  | '–' => ['-']
  | '～' => ['~']
  | '’' => ['\'']
  | '‘' => ['\'']
  | '…' => ['.', '.', '.']
  | '┅' => ['.', '.', '.']
  | '『' => ['"']
  | '』' => ['"']
  | '「' => ['"']
  | '」' => ['"']
  | c => [c]

/-- Modelled from the spec: the full punctuation-normalization pre-step,
applying the substitution table characterwise. -/
def replace_unicode_punct (l : PyStr) : PyStr := l.flatMap rupChar

/-- One step of the regex substitution `self._split.sub(r" \1 ", s)`:
a punctuation/symbol/Han character is wrapped in single spaces, any other
character is kept as is. -/
def subSplitChar (c : Char) : PyStr :=
  if isSplitChar c then [' ', c, ' '] else [c]

/-- The regex substitution `self._split.sub(r" \1 ", s)`. -/
def subSplit (l : PyStr) : PyStr := l.flatMap subSplitChar

/-- Worker for Python `s.split()`: `acc` holds the reversed current word. -/
def wordsAux : PyStr → PyStr → List PyStr
  | acc, [] => if acc.isEmpty then [] else [acc.reverse]
  | acc, c :: rest =>
    if pyIsSpace c then
      if acc.isEmpty then wordsAux [] rest else acc.reverse :: wordsAux [] rest
    else wordsAux (c :: acc) rest

/-- Python `s.split()`: the maximal whitespace-free non-empty runs of `s`. -/
def wordsOf (l : PyStr) : List PyStr := wordsAux [] l

/-- Python `" ".join(ws)`. -/
def joinWords : List PyStr → PyStr
  | [] => []
  | [w] => w
  | w :: ws => w ++ ' ' :: joinWords ws

/-- Python `" ".join(s.split())`: collapse whitespace runs to single spaces
and strip the ends. -/
def collapseSpaces (l : PyStr) : PyStr := joinWords (wordsOf l)

/-- Python `s.strip()`: drop leading and trailing whitespace. -/
def pyStrip (l : PyStr) : PyStr :=
  ((l.dropWhile pyIsSpace).reverse.dropWhile pyIsSpace).reverse

/-- `ToxicityList._tokenize`: strip, normalize punctuation, isolate
punctuation/symbol/Han characters, collapse whitespace, and pad with one
space on each side. -/
def tokenize (l : PyStr) : PyStr :=
  let s := replace_unicode_punct (pyStrip l)
  ' ' :: collapseSpaces (subSplit s) ++ [' ']

/-- Python `str.lower()`, restricted to the ASCII case mapping (all the
concrete inputs of this development are ASCII; non-ASCII characters are
left unchanged). -/
def pyLowerChar : Char → Char
  | 'A' => 'a'
  | 'B' => 'b'
  | 'C' => 'c'
  | 'D' => 'd'
  | 'E' => 'e'
  | 'F' => 'f'
  | 'G' => 'g'
  | 'H' => 'h'
  | 'I' => 'i'
  | 'J' => 'j'
  | 'K' => 'k'
  | 'L' => 'l'
  | 'M' => 'm'
  | 'N' => 'n'
  | 'O' => 'o'
  | 'P' => 'p'
  | 'Q' => 'q'
  | 'R' => 'r'
  | 'S' => 's'
  | 'T' => 't'
  | 'U' => 'u'
  | 'V' => 'v'
  | 'W' => 'w'
  | 'X' => 'x'
  | 'Y' => 'y'
  | 'Z' => 'z'
  | c => c

/-- Python `s.lower()` on a whole string. -/
def lowerStr (l : PyStr) : PyStr := l.map pyLowerChar

/-- Python substring containment `needle in hay` on strings. -/
def containsSub (needle : PyStr) : PyStr → Bool
  | [] => needle.isEmpty
  | c :: t => needle.isPrefixOf (c :: t) || containsSub needle t

/-- The two set insertions performed for one line of a word-list file:
`line.strip()` is tokenized, and both the tokenized form and its lowercased
form are added. -/
def lineEntry (line : PyStr) : List PyStr :=
  let tokenized := tokenize (pyStrip line)
  [tokenized, lowerStr tokenized]

/-- The state of a constructed `ToxicityList`: its set of stored phrases. -/
structure ToxicityList where
  toxicity : Finset PyStr
deriving DecidableEq

/-- `ToxicityList.__init__` on already-read file contents: each file is a
list of lines; every line contributes its tokenized and lowercased
tokenized forms to the set. -/
def mkToxicityList (files : List (List PyStr)) : ToxicityList :=
  ⟨(files.flatMap (fun file => file.flatMap lineEntry)).toFinset⟩

/-- `ToxicityList.toxicity_count`: tokenize `replace_unicode_punct(s)`,
count the stored phrases occurring as substrings of the tokenized string
and of its lowercased form, and return the maximum of the two counts. -/
def ToxicityList.toxicity_count (tl : ToxicityList) (s : PyStr) : Nat :=
  let tokenized := tokenize (replace_unicode_punct s)
  let regular := tl.toxicity.sum (fun t => if containsSub t tokenized then 1 else 0)
  let lowercased :=
    tl.toxicity.sum (fun t => if containsSub t (lowerStr tokenized) then 1 else 0)
  max regular lowercased

/-! ### Basic character facts -/

theorem pyIsSpace_space : pyIsSpace ' ' = true := by decide

theorem isSplitChar_space : isSplitChar ' ' = false := by decide

theorem isSplitChar_eq_false_of_space {c : Char} (h : pyIsSpace c = true) :
    isSplitChar c = false := by
  simp only [pyIsSpace, Bool.or_eq_true, beq_iff_eq, Bool.and_eq_true,
    decide_eq_true_eq] at h
  simp only [isSplitChar, Bool.or_eq_false_iff, beq_eq_false_iff_ne, ne_eq,
    Bool.and_eq_false_iff, decide_eq_false_iff_not]
  omega

/-! ### `wordsOf` (Python `str.split()`) -/

theorem wordsOf_nil : wordsOf [] = [] := rfl

theorem wordsAux_ne_nil :
    ∀ (l acc : PyStr), acc ≠ [] →
      wordsAux acc l =
        (acc.reverse ++ l.takeWhile (fun d => !pyIsSpace d)) ::
          wordsAux [] (l.dropWhile (fun d => !pyIsSpace d)) := by
  intro l
  induction l with
  | nil =>
    intro acc hacc
    simp [wordsAux, List.isEmpty_iff, hacc]
  | cons c rest ih =>
    intro acc hacc
    rw [wordsAux]
    cases hc : pyIsSpace c with
    | true =>
      rw [if_pos rfl, if_neg (by simpa [List.isEmpty_iff] using hacc),
        List.takeWhile_cons, if_neg (by simp [hc]), List.dropWhile_cons,
        if_neg (by simp [hc]), wordsAux, if_pos hc,
        if_pos (show ([] : PyStr).isEmpty = true from rfl)]
      simp
    | false =>
      rw [if_neg (by simp), ih (c :: acc) (by simp), List.takeWhile_cons,
        if_pos (by simp [hc]), List.dropWhile_cons, if_pos (by simp [hc])]
      simp

theorem wordsOf_cons (c : Char) (rest : PyStr) :
    wordsOf (c :: rest) =
      if pyIsSpace c then wordsOf rest
      else (c :: rest.takeWhile (fun d => !pyIsSpace d)) ::
        wordsOf (rest.dropWhile (fun d => !pyIsSpace d)) := by
  show wordsAux [] (c :: rest) = _
  rw [wordsAux]
  cases hc : pyIsSpace c with
  | true => simp [wordsOf]
  | false =>
    simp only [Bool.false_eq_true, if_false]
    rw [wordsAux_ne_nil rest [c] (by simp)]
    rfl

/-- The recursion pattern of `str.split()`: skip a whitespace character, or
consume a maximal whitespace-free run. -/
theorem wordsOf_induction (motive : PyStr → Prop) (base : motive [])
    (ws_step : ∀ c rest, pyIsSpace c = true → motive rest → motive (c :: rest))
    (word_step : ∀ c rest, ¬pyIsSpace c = true →
      motive (rest.dropWhile (fun d => !pyIsSpace d)) → motive (c :: rest)) :
    ∀ l, motive l := by
  have H : ∀ n l, List.length l ≤ n → motive l := by
    intro n
    induction n with
    | zero =>
      intro l hl
      rw [List.length_eq_zero.mp (Nat.le_zero.mp hl)]
      exact base
    | succ n ih =>
      intro l hl
      cases l with
      | nil => exact base
      | cons c rest =>
        have hr : rest.length ≤ n := by simpa using hl
        by_cases hc : pyIsSpace c = true
        · exact ws_step c rest hc (ih rest hr)
        · exact word_step c rest hc
            (ih _ (le_trans (List.dropWhile_sublist _).length_le hr))
  exact fun l => H l.length l le_rfl

theorem takeWhile_append_of_neg {α : Type} (p : α → Bool) (c : α)
    (hc : p c = false) (l1 l2 : List α) :
    (l1 ++ c :: l2).takeWhile p = l1.takeWhile p := by
  induction l1 with
  | nil => simp [List.takeWhile_cons, hc]
  | cons a l1 ih =>
    simp only [List.cons_append, List.takeWhile_cons]
    cases h : p a <;> simp [ih]

theorem dropWhile_append_of_neg {α : Type} (p : α → Bool) (c : α)
    (hc : p c = false) (l1 l2 : List α) :
    (l1 ++ c :: l2).dropWhile p = l1.dropWhile p ++ c :: l2 := by
  induction l1 with
  | nil => simp [List.dropWhile_cons, hc]
  | cons a l1 ih =>
    simp only [List.cons_append, List.dropWhile_cons]
    cases h : p a <;> simp [ih]

theorem wordsOf_append_space (l1 l2 : PyStr) :
    wordsOf (l1 ++ ' ' :: l2) = wordsOf l1 ++ wordsOf l2 := by
  induction l1 using wordsOf_induction with
  | base => simp [wordsOf_cons, pyIsSpace_space, wordsOf_nil]
  | ws_step c rest h ih =>
    simp only [List.cons_append, wordsOf_cons, h, if_true, ih]
  | word_step c rest h ih =>
    have ht := takeWhile_append_of_neg (fun d => !pyIsSpace d) ' '
      (by simp [pyIsSpace_space]) rest l2
    have hd := dropWhile_append_of_neg (fun d => !pyIsSpace d) ' '
      (by simp [pyIsSpace_space]) rest l2
    rw [List.cons_append, wordsOf_cons, wordsOf_cons, if_neg h, if_neg h,
      ht, hd, ih]
    simp

/-- A word produced by `wordsOf` is non-empty and whitespace-free. -/
def goodWord (w : PyStr) : Prop := w ≠ [] ∧ ∀ d ∈ w, pyIsSpace d = false

theorem wordsOf_good (l : PyStr) : ∀ w ∈ wordsOf l, goodWord w := by
  induction l using wordsOf_induction with
  | base => simp [wordsOf_nil]
  | ws_step c rest h ih => simpa [wordsOf_cons, h] using ih
  | word_step c rest h ih =>
    intro w hw
    rw [wordsOf_cons, if_neg h] at hw
    rcases List.mem_cons.mp hw with hw | hw
    · subst hw
      refine ⟨by simp, ?_⟩
      intro d hd
      rcases List.mem_cons.mp hd with hd | hd
      · subst hd
        simpa using h
      · have := List.mem_takeWhile_imp hd
        simpa using this
    · exact ih w hw

theorem wordsOf_eq_single {l : PyStr} (h1 : l ≠ [])
    (h2 : ∀ d ∈ l, pyIsSpace d = false) : wordsOf l = [l] := by
  cases l with
  | nil => exact absurd rfl h1
  | cons c rest =>
    have hc : pyIsSpace c = false := h2 c (by simp)
    rw [wordsOf_cons, if_neg (by simp [hc])]
    have htake : rest.takeWhile (fun d => !pyIsSpace d) = rest := by
      rw [List.takeWhile_eq_self_iff]
      intro d hd
      simp [h2 d (by simp [hd])]
    have hdrop : rest.dropWhile (fun d => !pyIsSpace d) = [] := by
      rw [List.dropWhile_eq_nil_iff]
      intro d hd
      simp [h2 d (by simp [hd])]
    rw [htake, hdrop, wordsOf_nil]

/-! ### `joinWords` (Python `" ".join`) -/

theorem joinWords_cons (w : PyStr) {W : List PyStr} (hW : W ≠ []) :
    joinWords (w :: W) = w ++ ' ' :: joinWords W := by
  cases W with
  | nil => exact absurd rfl hW
  | cons w2 W2 => rfl

theorem wordsOf_joinWords (W : List PyStr) :
    wordsOf (joinWords W) = W.flatMap wordsOf := by
  induction W with
  | nil => simp [joinWords, wordsOf_nil]
  | cons w W ih =>
    cases W with
    | nil => simp [joinWords]
    | cons w2 W2 =>
      rw [joinWords_cons w (by simp), wordsOf_append_space, ih]
      simp

theorem joinWords_ne_nil {W : List PyStr} (hW : ∀ w ∈ W, goodWord w)
    (hne : W ≠ []) : joinWords W ≠ [] := by
  cases W with
  | nil => exact absurd rfl hne
  | cons w W2 =>
    have hw := (hW w (by simp)).1
    cases W2 with
    | nil => simpa [joinWords] using hw
    | cons w2 W3 =>
      rw [joinWords_cons w (by simp)]
      simp [hw]

theorem joinWords_getLast_not_space {W : List PyStr}
    (hW : ∀ w ∈ W, goodWord w) (hne : W ≠ []) :
    ∃ d, (joinWords W).getLast? = some d ∧ pyIsSpace d = false := by
  induction W with
  | nil => exact absurd rfl hne
  | cons w W2 ih =>
    cases W2 with
    | nil =>
      obtain ⟨hw1, hw2⟩ := hW w (by simp)
      obtain ⟨d, hd⟩ := Option.isSome_iff_exists.mp (List.getLast?_isSome.mpr hw1)
      exact ⟨d, by simpa [joinWords] using hd,
        hw2 d (List.mem_of_mem_getLast? (by simp [hd]))⟩
    | cons w2 W3 =>
      obtain ⟨d, hd1, hd2⟩ := ih (fun w hw => hW w (by simp [hw])) (by simp)
      refine ⟨d, ?_, hd2⟩
      have hX : joinWords (w2 :: W3) ≠ [] :=
        joinWords_ne_nil (fun w hw => hW w (by simp [hw])) (by simp)
      rw [joinWords_cons w (by simp), List.getLast?_append_cons]
      cases hJ : joinWords (w2 :: W3) with
      | nil => exact absurd hJ hX
      | cons e es => rw [List.getLast?_cons_cons, ← hJ]; exact hd1

theorem joinWords_head_not_space {W : List PyStr}
    (hW : ∀ w ∈ W, goodWord w) (hne : W ≠ []) :
    ∃ d rest, joinWords W = d :: rest ∧ pyIsSpace d = false := by
  cases W with
  | nil => exact absurd rfl hne
  | cons w W2 =>
    obtain ⟨hw1, hw2⟩ := hW w (by simp)
    cases w with
    | nil => exact absurd rfl hw1
    | cons c w' =>
      cases W2 with
      | nil => exact ⟨c, w', by simp [joinWords], hw2 c (by simp)⟩
      | cons w2 W3 =>
        exact ⟨c, w' ++ ' ' :: joinWords (w2 :: W3),
          by rw [joinWords_cons _ (by simp)]; simp, hw2 c (by simp)⟩

/-! ### `pyStrip` -/

theorem pyStrip_pad {W : List PyStr} (hW : ∀ w ∈ W, goodWord w) :
    pyStrip (' ' :: joinWords W ++ [' ']) = joinWords W := by
  unfold pyStrip
  rcases eq_or_ne W [] with hE | hne
  · subst hE
    simp [joinWords, List.dropWhile_cons, pyIsSpace_space]
  · obtain ⟨c, rest, hhead, hc⟩ := joinWords_head_not_space hW hne
    obtain ⟨d, hd1, hd2⟩ := joinWords_getLast_not_space hW hne
    have h1 : List.dropWhile pyIsSpace (' ' :: joinWords W ++ [' '])
        = joinWords W ++ [' '] := by
      rw [List.cons_append, List.dropWhile_cons, if_pos pyIsSpace_space, hhead,
        List.cons_append, List.dropWhile_cons, if_neg (by simp [hc])]
    rw [h1]
    have h2 : (joinWords W ++ [' ']).reverse = ' ' :: (joinWords W).reverse := by
      simp
    rw [h2, List.dropWhile_cons, if_pos pyIsSpace_space]
    have h3 : (joinWords W).reverse.head? = some d := by
      rw [List.head?_reverse]; exact hd1
    cases hrev : (joinWords W).reverse with
    | nil => simp [hrev] at h3
    | cons e es =>
      have he : e = d := by simpa [hrev] using h3
      rw [List.dropWhile_cons, if_neg (by simp [he, hd2]), ← hrev,
        List.reverse_reverse]

/-! ### `subSplit` and atomic words -/

/-- An "ordinary" character: neither whitespace nor in the splitting class. -/
def ordChar (c : Char) : Bool := !pyIsSpace c && !isSplitChar c

/-- A word of a split string is either a run of ordinary characters or a
single isolated punctuation/symbol/Han character. -/
def Atomic (w : PyStr) : Prop :=
  (∀ d ∈ w, ordChar d = true) ∨ ∃ c, isSplitChar c = true ∧ w = [c]

theorem pyIsSpace_eq_false_of_split {c : Char} (h : isSplitChar c = true) :
    pyIsSpace c = false := by
  cases hw : pyIsSpace c with
  | false => rfl
  | true => rw [isSplitChar_eq_false_of_space hw] at h; exact absurd h (by simp)

theorem subSplit_cons (c : Char) (l : PyStr) :
    subSplit (c :: l) = subSplitChar c ++ subSplit l := by
  simp [subSplit]

theorem subSplit_append (l1 l2 : PyStr) :
    subSplit (l1 ++ l2) = subSplit l1 ++ subSplit l2 := by
  simp [subSplit]

theorem subSplit_eq_self {l : PyStr} (h : ∀ d ∈ l, isSplitChar d = false) :
    subSplit l = l := by
  induction l with
  | nil => rfl
  | cons c rest ih =>
    rw [subSplit_cons, subSplitChar, if_neg (by simp [h c (by simp)]),
      ih (fun d hd => h d (by simp [hd]))]
    rfl

theorem takeWhile_subSplit (l : PyStr) :
    (subSplit l).takeWhile (fun d => !pyIsSpace d) = l.takeWhile ordChar := by
  induction l with
  | nil => rfl
  | cons c rest ih =>
    rw [subSplit_cons, subSplitChar]
    by_cases hs : isSplitChar c = true
    · rw [if_pos hs, List.cons_append, List.takeWhile_cons,
        if_neg (by simp [pyIsSpace_space]), List.takeWhile_cons,
        if_neg (by simp [ordChar, hs])]
    · rw [if_neg hs, List.cons_append, List.nil_append, List.takeWhile_cons,
        List.takeWhile_cons]
      by_cases hw : pyIsSpace c = true
      · rw [if_neg (by simp [hw]), if_neg (by simp [ordChar, hw])]
      · rw [if_pos (by simp at hw; simp [hw]),
          if_pos (by simp at hw ⊢; simp [ordChar, hw, hs]), ih]

theorem dropWhile_subSplit (l : PyStr) :
    (subSplit l).dropWhile (fun d => !pyIsSpace d) =
      subSplit (l.dropWhile ordChar) := by
  induction l with
  | nil => rfl
  | cons c rest ih =>
    rw [subSplit_cons, subSplitChar]
    by_cases hs : isSplitChar c = true
    · rw [if_pos hs, List.cons_append, List.dropWhile_cons,
        if_neg (by simp [pyIsSpace_space]), List.dropWhile_cons,
        if_neg (by simp [ordChar, hs]), subSplit_cons, subSplitChar, if_pos hs]
      rfl
    · rw [if_neg hs, List.cons_append, List.nil_append, List.dropWhile_cons,
        List.dropWhile_cons]
      by_cases hw : pyIsSpace c = true
      · rw [if_neg (by simp [hw]), if_neg (by simp [ordChar, hw]),
          subSplit_cons, subSplitChar, if_neg hs]
        rfl
      · rw [if_pos (by simp at hw; simp [hw]),
          if_pos (by simp at hw ⊢; simp [ordChar, hw, hs]), ih]

theorem wordsOf_subSplit_atomic :
    ∀ (n : Nat) (l : PyStr), l.length ≤ n →
      ∀ w ∈ wordsOf (subSplit l), Atomic w := by
  intro n
  induction n with
  | zero =>
    intro l hl w hw
    rw [List.length_eq_zero.mp (Nat.le_zero.mp hl)] at hw
    simp [subSplit, wordsOf_nil] at hw
  | succ n ih =>
    intro l hl w hw
    cases l with
    | nil => simp [subSplit, wordsOf_nil] at hw
    | cons c rest =>
      have hrest : rest.length ≤ n := by simpa using hl
      rw [subSplit_cons, subSplitChar] at hw
      by_cases hs : isSplitChar c = true
      · rw [if_pos hs] at hw
        have heq : ([' ', c, ' '] : PyStr) ++ subSplit rest
            = ' ' :: c :: ' ' :: subSplit rest := rfl
        rw [heq, wordsOf_cons, if_pos pyIsSpace_space, wordsOf_cons,
          if_neg (by simp [pyIsSpace_eq_false_of_split hs]),
          List.takeWhile_cons, if_neg (by simp [pyIsSpace_space]),
          List.dropWhile_cons, if_neg (by simp [pyIsSpace_space])] at hw
        rcases List.mem_cons.mp hw with hw | hw
        · exact Or.inr ⟨c, hs, by simpa using hw⟩
        · rw [wordsOf_cons, if_pos pyIsSpace_space] at hw
          exact ih rest hrest w hw
      · rw [if_neg hs, List.cons_append, List.nil_append, wordsOf_cons] at hw
        by_cases hws : pyIsSpace c = true
        · rw [if_pos hws] at hw
          exact ih rest hrest w hw
        · simp only [hws, if_false] at hw
          rcases List.mem_cons.mp hw with hw | hw
          · subst hw
            refine Or.inl ?_
            intro d hd
            rcases List.mem_cons.mp hd with hd | hd
            · subst hd
              simp [ordChar, hs, hws]
            · rw [takeWhile_subSplit] at hd
              exact List.mem_takeWhile_imp hd
          · rw [dropWhile_subSplit] at hw
            have hlen : (rest.dropWhile ordChar).length ≤ n :=
              le_trans (List.dropWhile_sublist ordChar).length_le hrest
            exact ih _ hlen w hw

theorem wordsOf_subSplit_of_atomic {w : PyStr} (ha : Atomic w)
    (hg : goodWord w) : wordsOf (subSplit w) = [w] := by
  rcases ha with ha | ⟨c, hc, rfl⟩
  · have hnosplit : ∀ d ∈ w, isSplitChar d = false := by
      intro d hd
      have := ha d hd
      simp only [ordChar, Bool.and_eq_true, Bool.not_eq_true'] at this
      exact this.2
    rw [subSplit_eq_self hnosplit]
    exact wordsOf_eq_single hg.1 hg.2
  · have hcw : pyIsSpace c = false := pyIsSpace_eq_false_of_split hc
    show wordsOf (subSplitChar c ++ subSplit []) = [[c]]
    rw [subSplitChar, if_pos hc]
    simp only [subSplit, List.flatMap_nil, List.append_nil]
    rw [wordsOf_cons, if_pos pyIsSpace_space, wordsOf_cons,
      if_neg (by simp [hcw]), List.takeWhile_cons,
      if_neg (by simp [pyIsSpace_space]), List.dropWhile_cons,
      if_neg (by simp [pyIsSpace_space]), wordsOf_cons,
      if_pos pyIsSpace_space, wordsOf_nil]

theorem subSplit_joinWords (W : List PyStr) :
    subSplit (joinWords W) = joinWords (W.map subSplit) := by
  induction W with
  | nil => rfl
  | cons w W2 ih =>
    cases W2 with
    | nil => simp [joinWords]
    | cons w2 W3 =>
      have h1 : joinWords (w :: w2 :: W3) = w ++ ' ' :: joinWords (w2 :: W3) :=
        joinWords_cons w (by simp)
      have h2 : joinWords (subSplit w :: subSplit w2 :: List.map subSplit W3)
          = subSplit w ++ ' ' :: joinWords (subSplit w2 :: List.map subSplit W3) :=
        joinWords_cons (subSplit w) (by simp)
      rw [h1, subSplit_append, subSplit_cons, subSplitChar,
        if_neg (by simp [isSplitChar_space]), List.map_cons, List.map_cons,
        h2, ih, List.map_cons]
      simp

theorem flatMap_eq_self {α : Type} {W : List α} {f : α → List α}
    (h : ∀ w ∈ W, f w = [w]) : W.flatMap f = W := by
  induction W with
  | nil => rfl
  | cons w W2 ih =>
    rw [List.flatMap_cons, h w (by simp), ih (fun w hw => h w (by simp [hw]))]
    rfl

theorem wordsOf_subSplit_collapse (l : PyStr) :
    wordsOf (subSplit (collapseSpaces (subSplit l))) = wordsOf (subSplit l) := by
  unfold collapseSpaces
  rw [subSplit_joinWords, wordsOf_joinWords, List.flatMap_map]
  exact flatMap_eq_self (fun w hw =>
    wordsOf_subSplit_of_atomic
      (wordsOf_subSplit_atomic l.length l le_rfl w hw)
      (wordsOf_good _ w hw))

theorem collapse_subSplit_idem (l : PyStr) :
    collapseSpaces (subSplit (collapseSpaces (subSplit l))) =
      collapseSpaces (subSplit l) := by
  unfold collapseSpaces
  exact congrArg joinWords (wordsOf_subSplit_collapse l)

/-! ### Properties of the substitution table -/

/-- The right-hand sides occurring in the substitution table. -/
def rupOutputs : List PyStr :=
  [[','], ['.'], ['"'], [':'], ['?'], ['!'], ['('], [')'], [';'], ['-'],
    ['~'], ['\''], ['.', '.', '.']]

theorem rupChar_master (c : Char) :
    rupChar c = [c] ∨ (rupChar c ∈ rupOutputs ∧ pyIsSpace c = false) := by
  unfold rupChar
  split
  all_goals first
    | (left; rfl)
    | (right; exact ⟨by decide, by decide⟩)

theorem rupOutputs_ok :
    ∀ out ∈ rupOutputs, out ≠ [] ∧
      ∀ d ∈ out, pyIsSpace d = false ∧ rupChar d = [d] := by decide

theorem rupChar_stable {c d : Char} (h : d ∈ rupChar c) : rupChar d = [d] := by
  rcases rupChar_master c with hm | ⟨hm, _⟩
  · rw [hm] at h
    rcases List.mem_singleton.mp h with rfl
    exact hm
  · exact ((rupOutputs_ok _ hm).2 d h).2

theorem rupChar_of_space {c : Char} (h : pyIsSpace c = true) :
    rupChar c = [c] := by
  rcases rupChar_master c with hm | ⟨_, hm⟩
  · exact hm
  · rw [hm] at h
    exact absurd h (by simp)

theorem rupChar_head {c : Char} (hw : pyIsSpace c = false) :
    ∃ d ds, rupChar c = d :: ds ∧ pyIsSpace d = false := by
  rcases rupChar_master c with hm | ⟨hm, _⟩
  · exact ⟨c, [], hm, hw⟩
  · obtain ⟨hne, hall⟩ := rupOutputs_ok _ hm
    cases hout : rupChar c with
    | nil => rw [hout] at hm; exact absurd hm (by decide)
    | cons d ds =>
      refine ⟨d, ds, rfl, (hall d ?_).1⟩
      rw [hout]
      simp

theorem rupChar_getLast {c : Char} (hw : pyIsSpace c = false) :
    ∃ e, (rupChar c).getLast? = some e ∧ pyIsSpace e = false := by
  rcases rupChar_master c with hm | ⟨hm, _⟩
  · exact ⟨c, by simp [hm], hw⟩
  · obtain ⟨hne, hall⟩ := rupOutputs_ok _ hm
    obtain ⟨e, he⟩ := Option.isSome_iff_exists.mp (List.getLast?_isSome.mpr hne)
    exact ⟨e, he, (hall e (List.mem_of_mem_getLast? (by simp [he]))).1⟩

theorem rup_cons (c : Char) (l : PyStr) :
    replace_unicode_punct (c :: l) = rupChar c ++ replace_unicode_punct l := by
  simp [replace_unicode_punct]

theorem rup_append (l1 l2 : PyStr) :
    replace_unicode_punct (l1 ++ l2) =
      replace_unicode_punct l1 ++ replace_unicode_punct l2 := by
  simp [replace_unicode_punct]

theorem rup_singleton (c : Char) : replace_unicode_punct [c] = rupChar c := by
  simp [replace_unicode_punct]

theorem rup_fix {l : PyStr} (h : ∀ d ∈ l, rupChar d = [d]) :
    replace_unicode_punct l = l := by
  induction l with
  | nil => rfl
  | cons c rest ih =>
    rw [rup_cons, h c (by simp), ih (fun d hd => h d (by simp [hd]))]
    rfl

theorem mem_rup_stable {l : PyStr} {d : Char}
    (h : d ∈ replace_unicode_punct l) : rupChar d = [d] := by
  rcases List.mem_flatMap.mp h with ⟨c, _, hd⟩
  exact rupChar_stable hd

theorem rup_idem (l : PyStr) :
    replace_unicode_punct (replace_unicode_punct l) = replace_unicode_punct l :=
  rup_fix (fun _ hd => mem_rup_stable hd)

/-! ### `replace_unicode_punct` commutes with stripping -/

theorem dropWhile_rup (l : PyStr) :
    (replace_unicode_punct l).dropWhile pyIsSpace =
      replace_unicode_punct (l.dropWhile pyIsSpace) := by
  induction l with
  | nil => rfl
  | cons c rest ih =>
    rw [rup_cons, List.dropWhile_cons]
    cases hw : pyIsSpace c with
    | true =>
      rw [if_pos rfl, rupChar_of_space hw, List.singleton_append,
        List.dropWhile_cons, if_pos hw, ih]
    | false =>
      rw [if_neg (by simp)]
      obtain ⟨d, ds, hcd, hd⟩ := rupChar_head hw
      rw [hcd, List.cons_append, List.dropWhile_cons, if_neg (by simp [hd]),
        rup_cons, hcd, List.cons_append]

theorem rstrip_rup (m : PyStr) :
    ((replace_unicode_punct m).reverse.dropWhile pyIsSpace).reverse =
      replace_unicode_punct ((m.reverse.dropWhile pyIsSpace).reverse) := by
  induction m using List.reverseRecOn with
  | nil => rfl
  | append_singleton m c ih =>
    rw [rup_append, rup_singleton]
    cases hw : pyIsSpace c with
    | true =>
      rw [rupChar_of_space hw]
      have h1 : (replace_unicode_punct m ++ [c]).reverse
          = c :: (replace_unicode_punct m).reverse := by simp
      have h2 : (m ++ [c]).reverse = c :: m.reverse := by simp
      rw [h1, h2, List.dropWhile_cons, if_pos hw, List.dropWhile_cons,
        if_pos hw, ih]
    | false =>
      obtain ⟨e, he1, he2⟩ := rupChar_getLast hw
      have h2 : (m ++ [c]).reverse = c :: m.reverse := by simp
      have hR : ((m ++ [c]).reverse.dropWhile pyIsSpace).reverse = m ++ [c] := by
        rw [h2, List.dropWhile_cons, if_neg (by simp [hw])]
        simp
      rw [hR, rup_append]
      have hhead : (rupChar c).reverse.head? = some e := by
        rw [List.head?_reverse]
        exact he1
      cases hrev : (rupChar c).reverse with
      | nil => rw [hrev] at hhead; exact absurd hhead (by simp)
      | cons f fs =>
        have hf : f = e := by rw [hrev] at hhead; simpa using hhead
        have h1 : (replace_unicode_punct m ++ rupChar c).reverse
            = f :: (fs ++ (replace_unicode_punct m).reverse) := by
          rw [List.reverse_append, hrev]
          simp
        rw [h1, List.dropWhile_cons, if_neg (by simp [hf, he2]),
          ← List.cons_append, ← hrev, List.reverse_append]
        simp [rup_singleton]

theorem pyStrip_rup (l : PyStr) :
    pyStrip (replace_unicode_punct l) = replace_unicode_punct (pyStrip l) := by
  unfold pyStrip
  rw [dropWhile_rup]
  exact rstrip_rup (l.dropWhile pyIsSpace)

theorem tokenize_def (l : PyStr) :
    tokenize l =
      ' ' :: collapseSpaces (subSplit (replace_unicode_punct (pyStrip l)))
        ++ [' '] := rfl

/-- The tokenized form used inside `toxicity_count` equals a single
application of `_tokenize`. -/
theorem tokenize_rup (s : PyStr) :
    tokenize (replace_unicode_punct s) = tokenize s := by
  rw [tokenize_def, tokenize_def s, pyStrip_rup, rup_idem]

/-! ### Character-membership tracking -/

theorem mem_joinWords {d : Char} {W : List PyStr} (h : d ∈ joinWords W) :
    d = ' ' ∨ ∃ w ∈ W, d ∈ w := by
  induction W with
  | nil => simp [joinWords] at h
  | cons w W2 ih =>
    cases W2 with
    | nil => exact Or.inr ⟨w, by simp, by simpa [joinWords] using h⟩
    | cons w2 W3 =>
      rw [joinWords_cons w (by simp)] at h
      rcases List.mem_append.mp h with h | h
      · exact Or.inr ⟨w, by simp, h⟩
      · rcases List.mem_cons.mp h with h | h
        · exact Or.inl h
        · rcases ih h with h | ⟨w2, hw2, hd⟩
          · exact Or.inl h
          · exact Or.inr ⟨w2, by simp [hw2], hd⟩

theorem mem_wordsOf {d : Char} {l : PyStr} :
    ∀ w ∈ wordsOf l, d ∈ w → d ∈ l := by
  induction l using wordsOf_induction with
  | base => simp [wordsOf_nil]
  | ws_step c rest h ih =>
    intro w hw hd
    rw [wordsOf_cons, if_pos h] at hw
    exact List.mem_cons_of_mem c (ih w hw hd)
  | word_step c rest h ih =>
    intro w hw hd
    rw [wordsOf_cons, if_neg h] at hw
    rcases List.mem_cons.mp hw with hw | hw
    · subst hw
      rcases List.mem_cons.mp hd with hd | hd
      · simp [hd]
      · exact List.mem_cons_of_mem c ((List.takeWhile_sublist _).subset hd)
    · exact List.mem_cons_of_mem c
        ((List.dropWhile_sublist _).subset (ih w hw hd))

theorem mem_subSplit {d : Char} {l : PyStr} (h : d ∈ subSplit l) :
    d = ' ' ∨ d ∈ l := by
  rcases List.mem_flatMap.mp h with ⟨c, hc, hd⟩
  rw [subSplitChar] at hd
  by_cases hs : isSplitChar c = true
  · rw [if_pos hs] at hd
    rcases List.mem_cons.mp hd with hd | hd
    · exact Or.inl hd
    · rcases List.mem_cons.mp hd with hd | hd
      · exact Or.inr (hd ▸ hc)
      · exact Or.inl (List.mem_singleton.mp hd)
  · rw [if_neg hs] at hd
    exact Or.inr ((List.mem_singleton.mp hd) ▸ hc)

/-! ### Idempotence of the tokenizer -/

theorem pyStrip_tokenize (s : PyStr) :
    pyStrip (tokenize s) =
      collapseSpaces (subSplit (replace_unicode_punct (pyStrip s))) := by
  rw [tokenize_def]
  exact pyStrip_pad (wordsOf_good _)

theorem rup_collapse_fix (s : PyStr) :
    replace_unicode_punct
        (collapseSpaces (subSplit (replace_unicode_punct (pyStrip s)))) =
      collapseSpaces (subSplit (replace_unicode_punct (pyStrip s))) := by
  apply rup_fix
  intro d hd
  unfold collapseSpaces at hd
  rcases mem_joinWords hd with rfl | ⟨w, hw, hdw⟩
  · decide
  · rcases mem_subSplit (mem_wordsOf w hw hdw) with rfl | hd'
    · decide
    · exact mem_rup_stable hd'

theorem tokenize_idem (s : PyStr) : tokenize (tokenize s) = tokenize s := by
  rw [tokenize_def (tokenize s), pyStrip_tokenize, rup_collapse_fix,
    collapse_subSplit_idem, ← tokenize_def]

/-! ### Shape of the tokenizer output -/

theorem tokenize_shape (s : PyStr) :
    ∃ core, tokenize s = ' ' :: core ++ [' '] ∧
      core.head? ≠ some ' ' ∧ core.getLast? ≠ some ' ' := by
  refine ⟨collapseSpaces (subSplit (replace_unicode_punct (pyStrip s))),
    tokenize_def s, ?_, ?_⟩
  all_goals
    unfold collapseSpaces
  · rcases eq_or_ne (wordsOf (subSplit (replace_unicode_punct (pyStrip s)))) []
      with hE | hne
    · rw [hE]
      simp [joinWords]
    · obtain ⟨c, rest, hhead, hc⟩ :=
        joinWords_head_not_space (wordsOf_good _) hne
      rw [hhead]
      simp only [List.head?_cons, ne_eq, Option.some.injEq]
      intro hEq
      rw [hEq] at hc
      rw [pyIsSpace_space] at hc
      exact absurd hc (by simp)
  · rcases eq_or_ne (wordsOf (subSplit (replace_unicode_punct (pyStrip s)))) []
      with hE | hne
    · rw [hE]
      simp [joinWords]
    · obtain ⟨d, hd1, hd2⟩ := joinWords_getLast_not_space (wordsOf_good _) hne
      rw [hd1]
      simp only [ne_eq, Option.some.injEq]
      intro hEq
      rw [hEq, pyIsSpace_space] at hd2
      exact absurd hd2 (by simp)

theorem tokenize_ws_only {s : PyStr} (h : ∀ c ∈ s, pyIsSpace c = true) :
    tokenize s = [' ', ' '] := by
  have h1 : s.dropWhile pyIsSpace = [] := List.dropWhile_eq_nil_iff.mpr h
  have h2 : pyStrip s = [] := by
    unfold pyStrip
    rw [h1]
    rfl
  rw [tokenize_def, h2]
  show ' ' :: collapseSpaces (subSplit (replace_unicode_punct [])) ++ [' '] = _
  rw [show subSplit (replace_unicode_punct []) = [] from rfl]
  unfold collapseSpaces
  rw [wordsOf_nil]
  rfl

/-! ### Lowercasing preserves the shape -/

theorem pyIsSpace_pyLowerChar (c : Char) :
    pyIsSpace (pyLowerChar c) = pyIsSpace c := by
  unfold pyLowerChar
  split
  all_goals rfl

theorem lowerStr_shape {t : PyStr} (core : PyStr)
    (ht : t = ' ' :: core ++ [' ']) :
    lowerStr t = ' ' :: lowerStr core ++ [' '] := by
  subst ht
  simp only [lowerStr, List.map_cons, List.map_append]
  rw [show pyLowerChar ' ' = ' ' from by decide]
  rfl

theorem head?_lowerStr (l : PyStr) :
    (lowerStr l).head? = l.head?.map pyLowerChar := by
  simp [lowerStr]

theorem getLast?_lowerStr (l : PyStr) :
    (lowerStr l).getLast? = l.getLast?.map pyLowerChar := by
  simp [lowerStr]

/-! ### The two-space string never occurs inside a non-blank tokenization -/

theorem containsSub_cons (needle : PyStr) (c : Char) (t : PyStr) :
    containsSub needle (c :: t) =
      (needle.isPrefixOf (c :: t) || containsSub needle t) := rfl

theorem beq_space_eq_false {c : Char} (hc : pyIsSpace c = false) :
    (' ' == c) = false := by
  simp only [beq_eq_false_iff_ne, ne_eq]
  intro hEq
  rw [← hEq] at hc
  exact absurd hc (by decide)

theorem containsSub_two_spaces_append {w : PyStr} (R : PyStr)
    (hw : ∀ d ∈ w, pyIsSpace d = false) :
    containsSub [' ', ' '] (w ++ R) = containsSub [' ', ' '] R := by
  induction w with
  | nil => rfl
  | cons c w2 ih =>
    rw [List.cons_append, containsSub_cons]
    have hpre : List.isPrefixOf [' ', ' '] (c :: (w2 ++ R)) = false := by
      show (' ' == c && List.isPrefixOf [' '] (w2 ++ R)) = false
      rw [beq_space_eq_false (hw c (by simp)), Bool.false_and]
    rw [hpre, Bool.false_or]
    exact ih (fun d hd => hw d (by simp [hd]))

theorem isPrefixOf_two_spaces_false {w : PyStr} (R : PyStr) (hw1 : w ≠ [])
    (hw2 : ∀ d ∈ w, pyIsSpace d = false) :
    List.isPrefixOf [' ', ' '] (' ' :: (w ++ R)) = false := by
  cases w with
  | nil => exact absurd rfl hw1
  | cons c w2 =>
    show (' ' == ' ' && (' ' == c && List.isPrefixOf [] (w2 ++ R))) = false
    rw [beq_space_eq_false (hw2 c (by simp))]
    simp

theorem two_spaces_not_in_padded {W : List PyStr}
    (hW : ∀ w ∈ W, goodWord w) (hne : W ≠ []) :
    containsSub [' ', ' '] (' ' :: joinWords W ++ [' ']) = false := by
  induction W with
  | nil => exact absurd rfl hne
  | cons w W2 ih =>
    obtain ⟨hw1, hw2⟩ := hW w (by simp)
    cases W2 with
    | nil =>
      rw [show joinWords [w] = w from rfl, List.cons_append, containsSub_cons,
        isPrefixOf_two_spaces_false [' '] hw1 hw2, Bool.false_or,
        containsSub_two_spaces_append [' '] hw2]
      decide
    | cons w2 W3 =>
      rw [joinWords_cons w (by simp), List.cons_append, List.append_assoc,
        containsSub_cons, isPrefixOf_two_spaces_false _ hw1 hw2, Bool.false_or,
        containsSub_two_spaces_append _ hw2]
      exact ih (fun x hx => hW x (by simp [hx])) (by simp)

theorem lowerStr_append (a b : PyStr) :
    lowerStr (a ++ b) = lowerStr a ++ lowerStr b := by
  simp [lowerStr]

theorem lowerStr_cons (c : Char) (l : PyStr) :
    lowerStr (c :: l) = pyLowerChar c :: lowerStr l := rfl

theorem lowerStr_joinWords (W : List PyStr) :
    lowerStr (joinWords W) = joinWords (W.map lowerStr) := by
  induction W with
  | nil => rfl
  | cons w W2 ih =>
    cases W2 with
    | nil => rfl
    | cons w2 W3 =>
      rw [joinWords_cons w (by simp), lowerStr_append, lowerStr_cons,
        show pyLowerChar ' ' = ' ' from by decide, ih]
      exact (joinWords_cons (lowerStr w)
        (show List.map lowerStr (w2 :: W3) ≠ [] by simp)).symm

theorem goodWord_lowerStr {w : PyStr} (h : goodWord w) :
    goodWord (lowerStr w) := by
  refine ⟨by simpa [lowerStr] using h.1, ?_⟩
  intro d hd
  rcases List.mem_map.mp hd with ⟨e, he, rfl⟩
  rw [pyIsSpace_pyLowerChar]
  exact h.2 e he

/-! ### The tokenized form of a query and the two-space member -/

theorem tokenize_nil : tokenize [] = [' ', ' '] := tokenize_ws_only (by simp)

/-- If the tokenized form is not the two-space string, neither it nor its
lowercased form contains two consecutive spaces. -/
theorem two_spaces_not_in_tokenize {s : PyStr} (h : tokenize s ≠ [' ', ' ']) :
    containsSub [' ', ' '] (tokenize s) = false ∧
      containsSub [' ', ' '] (lowerStr (tokenize s)) = false := by
  have hW := wordsOf_good (subSplit (replace_unicode_punct (pyStrip s)))
  have hne : wordsOf (subSplit (replace_unicode_punct (pyStrip s))) ≠ [] := by
    intro hE
    apply h
    rw [tokenize_def]
    unfold collapseSpaces
    rw [hE]
    rfl
  constructor
  · rw [tokenize_def]
    exact two_spaces_not_in_padded hW hne
  · rw [tokenize_def]
    unfold collapseSpaces
    have hl : lowerStr (' ' :: joinWords (wordsOf (subSplit
        (replace_unicode_punct (pyStrip s)))) ++ [' '])
        = ' ' :: joinWords ((wordsOf (subSplit
            (replace_unicode_punct (pyStrip s)))).map lowerStr) ++ [' '] := by
      rw [lowerStr_shape _ rfl, lowerStr_joinWords]
    rw [hl]
    apply two_spaces_not_in_padded
    · intro w hw
      rcases List.mem_map.mp hw with ⟨w0, hw0, rfl⟩
      exact goodWord_lowerStr (hW w0 hw0)
    · simpa using hne

/-! ### Membership in a constructed `ToxicityList` -/

theorem mem_mkToxicityList {t : PyStr} {files : List (List PyStr)} :
    t ∈ (mkToxicityList files).toxicity ↔
      ∃ file ∈ files, ∃ line ∈ file, t ∈ lineEntry line := by
  simp [mkToxicityList, List.mem_toFinset, List.mem_flatMap]

theorem lineEntry_blank {line : PyStr} (h : pyStrip line = []) :
    lineEntry line = [[' ', ' '], [' ', ' ']] := by
  unfold lineEntry
  rw [h, tokenize_nil]
  rfl

/-! ### Counting lemmas -/

theorem toxicity_count_def (tl : ToxicityList) (s : PyStr) :
    tl.toxicity_count s =
      max (tl.toxicity.sum (fun t =>
          if containsSub t (tokenize (replace_unicode_punct s)) then 1 else 0))
        (tl.toxicity.sum (fun t =>
          if containsSub t (lowerStr (tokenize (replace_unicode_punct s)))
          then 1 else 0)) := rfl

theorem toxicity_count_eq_max_card (tl : ToxicityList) (s : PyStr) :
    tl.toxicity_count s =
      max ((tl.toxicity.filter (fun t => containsSub t (tokenize s) = true)).card)
        ((tl.toxicity.filter
          (fun t => containsSub t (lowerStr (tokenize s)) = true)).card) := by
  rw [toxicity_count_def, tokenize_rup, Finset.card_filter, Finset.card_filter]

theorem toxicity_count_mono {A B : ToxicityList}
    (h : A.toxicity ⊆ B.toxicity) (s : PyStr) :
    A.toxicity_count s ≤ B.toxicity_count s := by
  rw [toxicity_count_def, toxicity_count_def]
  exact max_le_max (Finset.sum_le_sum_of_subset h)
    (Finset.sum_le_sum_of_subset h)

/-- Removing blank lines changes nothing for queries whose tokenized form is
not the two-space string. -/
theorem toxicity_count_filter_blank (files : List (List PyStr)) (s : PyStr)
    (h : tokenize (replace_unicode_punct s) ≠ [' ', ' ']) :
    ToxicityList.toxicity_count (mkToxicityList (files.map
        (fun file => file.filter (fun line => !(pyStrip line).isEmpty)))) s
      = (mkToxicityList files).toxicity_count s := by
  obtain ⟨h1, h2⟩ := two_spaces_not_in_tokenize h
  have hsub : (mkToxicityList (files.map
      (fun file => file.filter (fun line => !(pyStrip line).isEmpty)))).toxicity
      ⊆ (mkToxicityList files).toxicity := by
    intro t ht
    rcases mem_mkToxicityList.mp ht with ⟨file, hfile, line, hline, hentry⟩
    rcases List.mem_map.mp hfile with ⟨file0, hfile0, rfl⟩
    exact mem_mkToxicityList.mpr
      ⟨file0, hfile0, line, (List.mem_filter.mp hline).1, hentry⟩
  have hzero : ∀ t ∈ (mkToxicityList files).toxicity,
      t ∉ (mkToxicityList (files.map
        (fun file => file.filter (fun line => !(pyStrip line).isEmpty)))).toxicity →
      t = [' ', ' '] := by
    intro t ht hnot
    rcases mem_mkToxicityList.mp ht with ⟨file, hfile, line, hline, hentry⟩
    by_cases hblank : pyStrip line = []
    · rw [lineEntry_blank hblank] at hentry
      rcases List.mem_cons.mp hentry with hentry | hentry
      · exact hentry
      · simpa using hentry
    · exfalso
      apply hnot
      refine mem_mkToxicityList.mpr ⟨file.filter
        (fun line => !(pyStrip line).isEmpty), List.mem_map_of_mem _ hfile,
        line, ?_, hentry⟩
      rw [List.mem_filter]
      exact ⟨hline, by simpa [List.isEmpty_iff] using hblank⟩
  rw [toxicity_count_def, toxicity_count_def]
  have hreg : ∀ (T : PyStr), containsSub [' ', ' '] T = false →
      ((mkToxicityList (files.map
        (fun file => file.filter (fun line => !(pyStrip line).isEmpty)))).toxicity.sum
        (fun t => if containsSub t T then 1 else 0) : Nat)
      = (mkToxicityList files).toxicity.sum
        (fun t => if containsSub t T then 1 else 0) := by
    intro T hT
    apply Finset.sum_subset hsub
    intro t ht hnot
    rw [hzero t ht hnot, hT]
    rfl
  rw [hreg _ h1, hreg _ h2]

/-! ### Construction from the file system -/

/-- A model of the file system: a path maps to the list of lines of the
file, or to `none` when the path does not exist or is unreadable. -/
def FileSys : Type := String → Option (List PyStr)

/-- The error raised by Python `open` on a missing or unreadable path. -/
inductive PyErr : Type
  | fileNotFound (path : String)
deriving DecidableEq

/-- The loading loop of `ToxicityList.__init__` over the supplied paths:
each readable file contributes the entries of all its lines to the
accumulated set; an unreadable path raises, aborting the loop (no object is
produced). -/
def loadToxicity (fs : FileSys) : List String → Finset PyStr →
    Except PyErr (Finset PyStr)
  | [], acc => .ok acc
  | p :: rest, acc =>
    match fs p with
    | none => .error (.fileNotFound p)
    | some lines =>
      loadToxicity fs rest (acc ∪ (lines.flatMap lineEntry).toFinset)

/-- `ToxicityList(word_list_paths)` reading from the file system. -/
def mkToxicityListE (fs : FileSys) (paths : List String) :
    Except PyErr ToxicityList :=
  (loadToxicity fs paths ∅).map ToxicityList.mk

theorem loadToxicity_ok_iff (fs : FileSys) :
    ∀ (paths : List String) (acc : Finset PyStr),
      (∃ r, loadToxicity fs paths acc = .ok r) ↔
        ∀ p ∈ paths, (fs p).isSome := by
  intro paths
  induction paths with
  | nil =>
    intro acc
    constructor
    · intro _ p hp
      simp at hp
    · intro _
      exact ⟨acc, rfl⟩
  | cons p rest ih =>
    intro acc
    constructor
    · rintro ⟨r, hr⟩ q hq
      cases hfs : fs p with
      | none => simp [loadToxicity, hfs] at hr
      | some lines =>
        rcases List.mem_cons.mp hq with rfl | hq
        · simp [hfs]
        · rw [loadToxicity, hfs] at hr
          exact (ih _).mp ⟨r, hr⟩ q hq
    · intro hall
      have hp := hall p (by simp)
      cases hfs : fs p with
      | none => rw [hfs] at hp; simp at hp
      | some lines =>
        obtain ⟨r, hr⟩ := (ih (acc ∪ (lines.flatMap lineEntry).toFinset)).mpr
          (fun q hq => hall q (by simp [hq]))
        exact ⟨r, by rw [loadToxicity, hfs]; exact hr⟩

theorem loadToxicity_ok (fs : FileSys) :
    ∀ (paths : List String) (acc : Finset PyStr),
      (∀ p ∈ paths, (fs p).isSome) →
      loadToxicity fs paths acc = .ok (acc ∪
        ((paths.map (fun p => (fs p).getD [])).flatMap
          (fun lines => lines.flatMap lineEntry)).toFinset) := by
  intro paths
  induction paths with
  | nil =>
    intro acc _
    simp [loadToxicity]
  | cons p rest ih =>
    intro acc hall
    have hp := hall p (by simp)
    cases hfs : fs p with
    | none => rw [hfs] at hp; simp at hp
    | some lines =>
      rw [loadToxicity, hfs]
      show loadToxicity fs rest (acc ∪ (lines.flatMap lineEntry).toFinset) = _
      rw [ih _ (fun q hq => hall q (by simp [hq]))]
      congr 1
      rw [List.map_cons, List.flatMap_cons, List.toFinset_append, hfs]
      simp [Finset.union_assoc]

theorem mkToxicityListE_ok (fs : FileSys) (paths : List String)
    (h : ∀ p ∈ paths, (fs p).isSome) :
    mkToxicityListE fs paths =
      .ok (mkToxicityList (paths.map (fun p => (fs p).getD []))) := by
  unfold mkToxicityListE mkToxicityList
  rw [loadToxicity_ok fs paths ∅ h]
  simp only [Except.map, Finset.empty_union]

/-! ### The threshold filter layer -/

/-- A dataset record: source text and optional target text. -/
structure DatasetLine where
  src : PyStr
  tgt : Option PyStr

/-- The state of a constructed `ToxicityFilter`. -/
structure ToxicityFilter where
  max_toxicity : Option Nat
  max_toxicity_difference : Option Nat
  src_toxicity_list : Option ToxicityList
  tgt_toxicity_list : Option ToxicityList

/-- One side of `ToxicityFilter.__init__`: `if paths: ... = ToxicityList(paths)`,
leaving the matcher absent when the path list is empty. -/
def buildSide (fs : FileSys) (paths : List String) :
    Except PyErr (Option ToxicityList) :=
  if paths.isEmpty then .ok none else (mkToxicityListE fs paths).map some

/-- `ToxicityFilter.__init__`: resolve the per-language path from the
template, keep it only when the file exists (`os.path.isfile`), append the
auxiliary English list path when provided, and build a `ToxicityList` for
each side whose path list is non-empty (`None` otherwise); the source side
is built first, and a raised error aborts construction. -/
def ToxicityFilter.init (fs : FileSys) (twl_path_template : String → String)
    (eng_porn_twl_path : Option String)
    (max_toxicity max_toxicity_difference : Option Nat)
    (src_lang : String) (tgt_lang : Option String) :
    Except PyErr ToxicityFilter :=
  let src_twl_path := twl_path_template src_lang
  let src_paths :=
    (if (fs src_twl_path).isSome then [src_twl_path] else []) ++
      eng_porn_twl_path.toList
  let tgt_paths :=
    (match tgt_lang with
     | some tl =>
       if (fs (twl_path_template tl)).isSome then [twl_path_template tl]
       else []
     | none => []) ++
      eng_porn_twl_path.toList
  (buildSide fs src_paths).bind (fun src_list =>
    (buildSide fs tgt_paths).map (fun tgt_list =>
      ⟨max_toxicity, max_toxicity_difference, src_list, tgt_list⟩))

/-- The toxicity scores computed by `ToxicityFilter.filter_line`: the
source score when a source matcher exists, and the target score when both
a target text and a target matcher exist.  (The tail of `filter_line` — the
flag assignment after the target threshold comparison and the returned
labeled line — is cut off in the source file; the score computations and
their guards are the part visible in the source and are what is modelled
here.) -/
def ToxicityFilter.lineToxicities (f : ToxicityFilter) (line : DatasetLine) :
    Option Nat × Option Nat :=
  (f.src_toxicity_list.map (fun tl => tl.toxicity_count line.src),
    match line.tgt, f.tgt_toxicity_list with
    | some t, some tl => some (tl.toxicity_count t)
    | _, _ => none)

/-! ### Auxiliary facts for the claims -/

theorem pyLowerChar_eq_space {d : Char} (h : pyLowerChar d = ' ') :
    d = ' ' := by
  revert h
  unfold pyLowerChar
  split
  all_goals intro h
  all_goals first
    | (exfalso; exact absurd h (by decide))
    | exact h

/-- A concrete-string helper for witnesses and counterexamples. -/
def str (s : String) : PyStr := s.data

/-! ## The claims -/

/-- C1: for every query string `s` and every constructed `ToxicityList`,
`toxicity_count s` returns `max(regular, lowercased)`, where `regular` is
the number of distinct stored set members occurring as substrings of the
tokenized form of `s`, and `lowercased` the number occurring as substrings
of the fully-lowercased tokenized form; each stored member contributes at
most 1 (both counts are cardinalities of subsets of the stored set). -/
theorem claim_C1_count_is_max_of_distinct_matches
    (tl : ToxicityList) (s : PyStr) :
    tl.toxicity_count s =
      max ((tl.toxicity.filter
          (fun t => containsSub t (tokenize s) = true)).card)
        ((tl.toxicity.filter
          (fun t => containsSub t (lowerStr (tokenize s)) = true)).card) :=
  toxicity_count_eq_max_card tl s

/-- C2, counterexample: blank lines are not ignored.  A file consisting of
one blank line yields a matcher with `toxicity_count "" = 1`, while the
same file with the blank line removed yields `0`. -/
theorem claim_C2_counterexample :
    (mkToxicityList [[[]]]).toxicity_count [] = 1 ∧
      (mkToxicityList [[]]).toxicity_count [] = 0 := by decide

/-- C2, amended: removing blank (empty after trimming) lines preserves
`toxicity_count` for every query whose tokenized form is not the two-space
string; a blank line contributes exactly the padded-empty member, which
matches only queries that are empty or whitespace-only after
normalization. -/
theorem claim_C2_blank_lines_amended (files : List (List PyStr)) (s : PyStr)
    (h : tokenize (replace_unicode_punct s) ≠ [' ', ' ']) :
    ToxicityList.toxicity_count (mkToxicityList (files.map
        (fun file => file.filter (fun line => !(pyStrip line).isEmpty)))) s
      = (mkToxicityList files).toxicity_count s :=
  toxicity_count_filter_blank files s h

/-- Witness for C2's amended claim: a file list with a blank line, queried
with a non-blank string, scores the same with and without the blank line. -/
theorem claim_C2_blank_lines_amended_witness :
    tokenize (replace_unicode_punct (str "this is bad")) ≠ [' ', ' '] ∧
      ToxicityList.toxicity_count (mkToxicityList ([[str "bad", []]].map
          (fun file => file.filter (fun line => !(pyStrip line).isEmpty))))
        (str "this is bad")
        = (mkToxicityList [[str "bad", []]]).toxicity_count
            (str "this is bad") :=
  ⟨by decide,
    claim_C2_blank_lines_amended [[str "bad", []]] (str "this is bad")
      (by decide)⟩

/-- C3: every member of a constructed set — in both its original-case and
lowercased variants — is of the form `' ' :: core ++ [' ']` where `core`
neither starts nor ends with a space: it begins and ends with a single
padding space, so a substring match cannot merge a stored phrase with
adjacent token characters. -/
theorem claim_C3_member_padding {files : List (List PyStr)} {t : PyStr}
    (ht : t ∈ (mkToxicityList files).toxicity) :
    ∃ core, t = ' ' :: core ++ [' '] ∧
      core.head? ≠ some ' ' ∧ core.getLast? ≠ some ' ' := by
  rcases mem_mkToxicityList.mp ht with ⟨file, hfile, line, hline, hentry⟩
  have hentry' : t = tokenize (pyStrip line) ∨
      t = lowerStr (tokenize (pyStrip line)) := by
    simpa [lineEntry] using hentry
  obtain ⟨core, hc1, hc2, hc3⟩ := tokenize_shape (pyStrip line)
  rcases hentry' with rfl | rfl
  · exact ⟨core, hc1, hc2, hc3⟩
  · refine ⟨lowerStr core, ?_, ?_, ?_⟩
    · rw [hc1]
      exact lowerStr_shape core rfl
    · rw [head?_lowerStr]
      cases hcore : core.head? with
      | none => simp
      | some d =>
        intro hEq
        have hd : pyLowerChar d = ' ' := by simpa using hEq
        apply hc2
        rw [hcore, pyLowerChar_eq_space hd]
    · rw [getLast?_lowerStr]
      cases hcore : core.getLast? with
      | none => simp
      | some d =>
        intro hEq
        have hd : pyLowerChar d = ' ' := by simpa using hEq
        apply hc3
        rw [hcore, pyLowerChar_eq_space hd]

/-- Witness for C3 at a concrete phrase file. -/
theorem claim_C3_member_padding_witness :
    ∃ core, str " abc " = ' ' :: core ++ [' '] ∧
      core.head? ≠ some ' ' ∧ core.getLast? ≠ some ' ' :=
  claim_C3_member_padding
    (show str " abc " ∈ (mkToxicityList [[str "abc"]]).toxicity by decide)

/-- C4: the tokenized form matched inside `toxicity_count` (which
pre-applies the punctuation normalization to the query and re-applies it
inside `_tokenize`) equals the tokenized form produced by a single
application of `_tokenize` on the same raw string. -/
theorem claim_C4_query_equals_load_tokenization (s : PyStr) :
    tokenize (replace_unicode_punct s) = tokenize s :=
  tokenize_rup s

/-- C5: tokenization is idempotent. -/
theorem claim_C5_tokenize_idempotent (s : PyStr) :
    tokenize (tokenize s) = tokenize s :=
  tokenize_idem s

/-- C6: for every input, the tokenizer output starts and ends with exactly
one space (the wrapped core neither starts nor ends with a space), is
always of length at least 2, and is exactly the two-space string on empty
or whitespace-only input. -/
theorem claim_C6_padding_postcondition (s : PyStr) :
    2 ≤ (tokenize s).length ∧
      (∃ core, tokenize s = ' ' :: core ++ [' '] ∧
        core.head? ≠ some ' ' ∧ core.getLast? ≠ some ' ') ∧
      ((∀ c ∈ s, pyIsSpace c = true) → tokenize s = [' ', ' ']) := by
  obtain ⟨core, h1, h2, h3⟩ := tokenize_shape s
  refine ⟨?_, ⟨core, h1, h2, h3⟩, tokenize_ws_only⟩
  rw [h1]
  simp

/-- C7: for a fixed query, a larger stored phrase set never yields a
smaller `toxicity_count`. -/
theorem claim_C7_monotone_in_phrase_set {A B : ToxicityList}
    (h : A.toxicity ⊆ B.toxicity) (s : PyStr) :
    A.toxicity_count s ≤ B.toxicity_count s :=
  toxicity_count_mono h s

/-- Witness for C7 at concrete sets and a concrete query. -/
theorem claim_C7_monotone_witness :
    (mkToxicityList [[str "bad"]]).toxicity
        ⊆ (mkToxicityList [[str "bad"], [str "worse"]]).toxicity ∧
      (mkToxicityList [[str "bad"]]).toxicity_count (str "so bad")
        ≤ (mkToxicityList [[str "bad"], [str "worse"]]).toxicity_count
            (str "so bad") :=
  ⟨by decide,
    claim_C7_monotone_in_phrase_set
      (show (mkToxicityList [[str "bad"]]).toxicity
        ⊆ (mkToxicityList [[str "bad"], [str "worse"]]).toxicity by decide)
      (str "so bad")⟩

/-- C8: end-to-end scenario for the phrase file containing only `slur1`:
`"hello slur1 world"` tokenizes to `" hello slur1 world "` and scores 1,
`"hello SLUR1 world"` scores 1 via the lowercased pass, and
`"hello slur11 world"` scores 0 because no boundary is inserted between
adjacent alphanumeric characters. -/
theorem claim_C8_end_to_end :
    tokenize (str "hello slur1 world") = str " hello slur1 world " ∧
      (mkToxicityList [[str "slur1"]]).toxicity_count
          (str "hello slur1 world") = 1 ∧
      (mkToxicityList [[str "slur1"]]).toxicity_count
          (str "hello SLUR1 world") = 1 ∧
      (mkToxicityList [[str "slur1"]]).toxicity_count
          (str "hello slur11 world") = 0 := by
  decide

/-- C9: construction of a `ToxicityList` from paths succeeds exactly when
every supplied path is readable; if any path is missing, the construction
propagates a file-not-found error to the caller and produces no set. -/
theorem claim_C9_construction_error (fs : FileSys) (paths : List String) :
    ((∃ tl, mkToxicityListE fs paths = .ok tl) ↔
        ∀ p ∈ paths, (fs p).isSome) ∧
      ((∃ p ∈ paths, fs p = none) →
        ∃ q, mkToxicityListE fs paths = .error (PyErr.fileNotFound q)) := by
  have hiff : (∃ tl, mkToxicityListE fs paths = .ok tl) ↔
      ∀ p ∈ paths, (fs p).isSome := by
    constructor
    · rintro ⟨tl, htl⟩
      cases hload : loadToxicity fs paths ∅ with
      | ok r => exact (loadToxicity_ok_iff fs paths ∅).mp ⟨r, hload⟩
      | error e =>
        unfold mkToxicityListE at htl
        rw [hload] at htl
        exact absurd htl (by simp [Except.map])
    · intro hall
      exact ⟨_, mkToxicityListE_ok fs paths hall⟩
  refine ⟨hiff, ?_⟩
  rintro ⟨p, hp, hnone⟩
  cases hres : mkToxicityListE fs paths with
  | ok tl =>
    have := hiff.mp ⟨tl, hres⟩ p hp
    rw [hnone] at this
    exact absurd this (by simp)
  | error e =>
    cases e with
    | fileNotFound q => exact ⟨q, rfl⟩

/-- C10: with `tgt_lang = None` but a supplied (readable) auxiliary English
list, `ToxicityFilter` construction succeeds with a target-side matcher
built from the auxiliary list alone, and `filter_line` still computes a
target score for any line carrying target text. -/
theorem claim_C10_tgt_matcher_from_aux (fs : FileSys)
    (tmpl : String → String) (eng : String) (lines : List PyStr)
    (mt mtd : Option Nat) (src_lang : String) (h : fs eng = some lines) :
    ∃ flt, ToxicityFilter.init fs tmpl (some eng) mt mtd src_lang none
        = .ok flt ∧
      flt.tgt_toxicity_list = some (mkToxicityList [lines]) ∧
      ∀ (line : DatasetLine) (t : PyStr), line.tgt = some t →
        (flt.lineToxicities line).2
          = some ((mkToxicityList [lines]).toxicity_count t) := by
  have heng : (fs eng).isSome := by rw [h]; rfl
  have htgt : mkToxicityListE fs [eng] = .ok (mkToxicityList [lines]) := by
    rw [mkToxicityListE_ok fs [eng]
      (by intro p hp; rw [List.mem_singleton.mp hp]; exact heng)]
    rw [show ([eng].map (fun p => (fs p).getD [])) = [lines] by simp [h]]
  have hsrc : ∀ p ∈ (if (fs (tmpl src_lang)).isSome then [tmpl src_lang]
      else []) ++ [eng], (fs p).isSome := by
    intro p hp
    rcases List.mem_append.mp hp with hp | hp
    · by_cases hx : (fs (tmpl src_lang)).isSome
      · rw [if_pos hx] at hp
        rw [List.mem_singleton.mp hp]
        exact hx
      · rw [if_neg hx] at hp
        simp at hp
    · rw [List.mem_singleton.mp hp]
      exact heng
  refine ⟨⟨mt, mtd,
    some (mkToxicityList (((if (fs (tmpl src_lang)).isSome
          then [tmpl src_lang] else []) ++ [eng]).map
        (fun p => (fs p).getD []))),
    some (mkToxicityList [lines])⟩,
    ?_, rfl, ?_⟩
  · have hsrcE := mkToxicityListE_ok fs
      ((if (fs (tmpl src_lang)).isSome then [tmpl src_lang] else []) ++ [eng])
      hsrc
    have hne1 : ((if (fs (tmpl src_lang)).isSome then [tmpl src_lang]
        else []) ++ [eng]).isEmpty = false := by
      by_cases hx : (fs (tmpl src_lang)).isSome
      · rw [if_pos hx]
        rfl
      · rw [if_neg hx]
        rfl
    unfold ToxicityFilter.init buildSide
    simp only [Option.toList_some, List.nil_append, hne1, List.isEmpty_cons,
      Bool.false_eq_true, if_false, hsrcE, htgt]
    rfl
  · intro line t ht
    simp [ToxicityFilter.lineToxicities, ht]

/-- Witness for C10 at a concrete file system. -/
theorem claim_C10_tgt_matcher_witness :
    ∃ flt, ToxicityFilter.init (fun _ => some [str "bad"]) (fun l => l)
        (some "eng.txt") none none "en" none = .ok flt ∧
      flt.tgt_toxicity_list = some (mkToxicityList [[str "bad"]]) ∧
      ∀ (line : DatasetLine) (t : PyStr), line.tgt = some t →
        (flt.lineToxicities line).2
          = some ((mkToxicityList [[str "bad"]]).toxicity_count t) :=
  claim_C10_tgt_matcher_from_aux (fun _ => some [str "bad"]) (fun l => l)
    "eng.txt" [str "bad"] none none "en" rfl

end Toxicity
